import Mathlib

/-!
Verification of the chunk-and-upload pipeline of the juniper-ai-agent
repository.

Python strings are modeled as lists of characters.  While-loops whose
termination depends on runtime values are modeled with an explicit fuel
parameter: a result of none means the loop did not finish within the
given fuel, and a statement that holds for every fuel value shows the
loop never finishes.  Wall-clock readings are not modeled; durations
recorded into the statistics tracker are passed as 0.
-/

/-- Whitespace test used by Python's str.split and str.strip:
space, tab, newline, carriage return, vertical tab, form feed. -/
def isPySpace (c : Char) : Bool :=
  c = ' ' || c = '\t' || c = '\n' || c = '\r' ||
  c = Char.ofNat 11 || c = Char.ofNat 12

/-- Model of Python str.strip(): remove leading and trailing whitespace. -/
def pyStrip (s : List Char) : List Char :=
  ((s.dropWhile isPySpace).reverse.dropWhile isPySpace).reverse

/-- Accumulator loop for pySplit.  The accumulator holds the current word
in reverse order. -/
def pySplitGo : List Char → List Char → List (List Char)
  | [], cur => if cur.isEmpty then [] else [cur.reverse]
  | c :: rest, cur =>
      if isPySpace c then
        if cur.isEmpty then pySplitGo rest []
        else cur.reverse :: pySplitGo rest []
      else pySplitGo rest (c :: cur)

/-- Model of Python str.split() with no separator argument: split on runs
of whitespace, producing no empty words. -/
def pySplit (s : List Char) : List (List Char) :=
  pySplitGo s []

/-- Model of Python " ".join(words). -/
def joinSp : List (List Char) → List Char
  | [] => []
  | [w] => w
  | w :: ws => w ++ ' ' :: joinSp ws

/-- Loop body of chunk_text from AI-Agent-P3/upload_vectors.py
(lines 192-203).  The cursor starts at 0; each step takes the window
text[start : min(start+size, len(text))], strips it and appends it;
if the window end reached the end of the text the loop stops, else the
cursor moves to end - overlap.  Fuel bounds the number of iterations;
none means the loop did not terminate within the fuel. -/
def chunkTextGo (size overlap : Nat) (text : List Char) :
    Nat → Nat → Option (List (List Char))
  | 0, _ => none
  | fuel + 1, start =>
      if start < text.length then
        let e := min (start + size) text.length
        let c := pyStrip ((text.drop start).take (e - start))
        if e = text.length then some [c]
        else
          match chunkTextGo size overlap text fuel (e - overlap) with
          | none => none
          | some cs => some (c :: cs)
      else some []

/-- chunk_text from AI-Agent-P3/upload_vectors.py: run the cursor loop
from 0 and keep only the non-empty stripped chunks (the final list
comprehension of the source). -/
def chunkText (size overlap fuel : Nat) (text : List Char) :
    Option (List (List Char)) :=
  (chunkTextGo size overlap text fuel 0).map (fun cs => cs.filter (fun c => !c.isEmpty))

/-- CHUNK_SIZE constant of AI-Agent-P1/chunk_and_upload (1).py. -/
def CHUNK_SIZE : Nat := 1200

/-- CHUNK_OVERLAP constant of AI-Agent-P1/chunk_and_upload (1).py. -/
def CHUNK_OVERLAP : Nat := 150

/-- Loop of make_chunks from AI-Agent-P1/chunk_and_upload (1).py
(lines 64-81), operating on the word list produced by text.split().
Each step joins words[start : min(start+CHUNK_SIZE, len(words))] with
spaces, strips it, appends it if non-empty, stops if the window end
reached the end of the word list, else moves the cursor to
end - CHUNK_OVERLAP.  Total because CHUNK_OVERLAP < CHUNK_SIZE. -/
def makeChunksGo (words : List (List Char)) (start : Nat) : List (List Char) :=
  if h : start < words.length then
    let e := min (start + 1200) words.length
    let c := pyStrip (joinSp ((words.drop start).take (e - start)))
    if e ≥ words.length then (if c.isEmpty then [] else [c])
    else
      let rest := makeChunksGo words (e - 150)
      if c.isEmpty then rest else c :: rest
  else []
termination_by words.length - start
decreasing_by
  omega

/-- make_chunks from AI-Agent-P1/chunk_and_upload (1).py: split the text
into whitespace-delimited words and run the chunking loop from 0. -/
def makeChunks (text : List Char) : List (List Char) :=
  makeChunksGo (pySplit text) 0

/-- Character class kept by sanitize_id: the regex [a-zA-Z0-9_-].
Char.isAlpha and Char.isDigit match exactly the ASCII ranges of the
regex. -/
def isIdChar (c : Char) : Bool :=
  c.isAlpha || c.isDigit || c = '_' || c = '-'

/-- sanitize_id from AI-Agent-P1/chunk_and_upload (1).py (lines 43-44),
also inlined at AI-Agent-P3/upload_vectors.py line 423: every character
outside [a-zA-Z0-9_-] is replaced by an underscore. -/
def sanitizeId (s : List Char) : List Char :=
  s.map (fun c => if isIdChar c then c else '_')

/-- UploadStats from AI-Agent-P3/upload_vectors.py (lines 62-110).
start_time and the wall clock are not modeled; batch durations are kept
as natural numbers. -/
structure UploadStats where
  totalVectors : Nat := 0
  totalBatches : Nat := 0
  batchSize : Nat := 100
  vectorsUploaded : Nat := 0
  batchesCompleted : Nat := 0
  batchesFailed : Nat := 0
  batchTimes : List Nat := []
  deriving DecidableEq, Repr

/-- record_batch_complete (lines 78-82): under the lock, add the vector
count, bump the completed-batch counter and append the duration. -/
def recordBatchComplete (s : UploadStats) (vectorsCount duration : Nat) : UploadStats :=
  { s with vectorsUploaded := s.vectorsUploaded + vectorsCount,
           batchesCompleted := s.batchesCompleted + 1,
           batchTimes := s.batchTimes ++ [duration] }

/-- record_batch_failed (lines 84-86): under the lock, bump the
failed-batch counter. -/
def recordBatchFailed (s : UploadStats) : UploadStats :=
  { s with batchesFailed := s.batchesFailed + 1 }

/-- One linearized write to the shared UploadStats.  The source guards
both writers with a single Lock, so a concurrent execution is some
interleaving, i.e. some sequence, of these atomic operations. -/
inductive StatsOp where
  | complete (vectorsCount duration : Nat)
  | failed
  deriving DecidableEq, Repr

/-- Apply one atomic statistics write. -/
def applyStatsOp (s : UploadStats) : StatsOp → UploadStats
  | StatsOp.complete c d => recordBatchComplete s c d
  | StatsOp.failed => recordBatchFailed s

/-- Apply a sequence of atomic statistics writes in order. -/
def applyStatsOps (s : UploadStats) (ops : List StatsOp) : UploadStats :=
  ops.foldl applyStatsOp s

/-- Discriminator for success operations. -/
def StatsOp.isComplete : StatsOp → Bool
  | StatsOp.complete _ _ => true
  | StatsOp.failed => false

/-- Vector count carried by a success operation. -/
def StatsOp.vcount : StatsOp → Nat
  | StatsOp.complete c _ => c
  | StatsOp.failed => 0

/-- An upload record.  Only the originating file matters for the claims;
id, text, metadata and embedding model are carried by the real record
but play no role in the control flow. -/
structure Record where
  file : List Char
  deriving DecidableEq, Repr

/-- The last_error strings built by upload_batch, kept structurally:
an HTTP error keeps the status code and the first 200 characters of the
body, a timeout is the fixed message, a request exception keeps its
text. -/
inductive ErrMsg where
  | http (code : Nat) (bodyPre : List Char)
  | requestTimeout
  | requestExc (msg : List Char)
  deriving DecidableEq, Repr

/-- Remote-store response to one POST attempt, as discriminated by
upload_batch: HTTP 200 with a count, HTTP 429 with an optional
Retry-After, HTTP 413, any other status with a body, a timeout
exception, or another request exception. -/
inductive Resp where
  | ok (count : Nat)
  | rateLimited (retryAfter : Option Nat)
  | tooLarge
  | httpError (code : Nat) (body : List Char)
  | timeout
  | connError (msg : List Char)
  deriving DecidableEq, Repr

/-- A response is transient when upload_batch records it into last_error
and falls through to the backoff: any non-200/429/413 status, a timeout,
or a request exception. -/
def Resp.isTransient : Resp → Bool
  | Resp.httpError _ _ => true
  | Resp.timeout => true
  | Resp.connError _ => true
  | _ => false

/-- The last_error value upload_batch stores for a response. -/
def Resp.errMsg : Resp → Option ErrMsg
  | Resp.httpError code body => some (ErrMsg.http code (body.take 200))
  | Resp.timeout => some ErrMsg.requestTimeout
  | Resp.connError msg => some (ErrMsg.requestExc msg)
  | _ => none

/-- The dictionary upload_batch returns: success flag, vectors uploaded
and the error message.  batch_num and duration are reported by the
source but never branched on. -/
structure Outcome where
  success : Bool
  vectorsUploaded : Nat
  error : Option ErrMsg
  deriving DecidableEq, Repr

/-- Observable side effects threaded through an upload: the shared
statistics, the sequence of time.sleep durations, and the number of
POST attempts issued. -/
structure Trace where
  stats : UploadStats
  sleeps : List Nat
  posts : Nat
  deriving DecidableEq, Repr

/-- The retry loop of upload_batch (for attempt in range(MAX_RETRIES),
lines 223-289).  remaining counts the attempts left, so the current
attempt index is maxRetries - remaining.  recurse is the recursive
upload_batch call used by the 413 split; it is given one unit less fuel
by uploadBatch below.  Branches follow the source: 200 records the batch
complete and returns success; 429 sleeps Retry-After (default 2^attempt)
and consumes the attempt without a backoff sleep; 413 splits the batch
at its midpoint, uploads both halves recursively and merges the
outcomes; any other status, timeout or request exception stores
last_error and, unless this was the final attempt, sleeps
min(2^attempt, 30); an exhausted loop records the batch failed and
returns the last error. -/
def uploadLoop (server : List Record → Nat → Resp) (maxRetries : Nat)
    (recurse : List Record → Trace → Option (Outcome × Trace))
    (vectors : List Record) :
    Nat → Option ErrMsg → Trace → Option (Outcome × Trace)
  | 0, lastError, tr =>
      some ({ success := false, vectorsUploaded := 0, error := lastError },
            { tr with stats := recordBatchFailed tr.stats })
  | remaining + 1, lastError, tr =>
      let attempt := maxRetries - (remaining + 1)
      let tr1 : Trace := { tr with posts := tr.posts + 1 }
      match server vectors attempt with
      | Resp.ok count =>
          some ({ success := true, vectorsUploaded := count, error := none },
                { tr1 with stats := recordBatchComplete tr1.stats count 0 })
      | Resp.rateLimited retryAfter =>
          uploadLoop server maxRetries recurse vectors remaining lastError
            { tr1 with sleeps := tr1.sleeps ++ [retryAfter.getD (2 ^ attempt)] }
      | Resp.tooLarge =>
          match recurse (vectors.take (vectors.length / 2)) tr1 with
          | none => none
          | some (r1, tr2) =>
              match recurse (vectors.drop (vectors.length / 2)) tr2 with
              | none => none
              | some (r2, tr3) =>
                  some ({ success := r1.success && r2.success,
                          vectorsUploaded := r1.vectorsUploaded + r2.vectorsUploaded,
                          error := match r1.error with
                                   | some e => some e
                                   | none => r2.error }, tr3)
      | r =>
          uploadLoop server maxRetries recurse vectors remaining
            r.errMsg
            (if attempt < maxRetries - 1
             then { tr1 with sleeps := tr1.sleeps ++ [min (2 ^ attempt) 30] }
             else tr1)

/-- upload_batch from AI-Agent-P3/upload_vectors.py (lines 207-289).
The server oracle maps a batch and an attempt index to the remote
response.  Fuel bounds the recursive 413 splitting; none means the
recursion did not finish within the fuel, and a run that returns none
for every fuel value never terminates. -/
def uploadBatch (server : List Record → Nat → Resp) (maxRetries : Nat) :
    Nat → List Record → Trace → Option (Outcome × Trace)
  | 0, _, _ => none
  | fuel + 1, vectors, tr =>
      uploadLoop server maxRetries
        (fun v t => uploadBatch server maxRetries fuel v t)
        vectors maxRetries none tr

/-- BATCH_SIZE constant of AI-Agent-P3/upload_vectors.py. -/
def BATCH_SIZE : Nat := 100

/-- MAX_RETRIES constant of AI-Agent-P3/upload_vectors.py. -/
def MAX_RETRIES : Nat := 3

/-- Batch construction of upsert_chunks (line 301):
batches = [vectors[i:i + BATCH_SIZE] for i in range(0, len(vectors), BATCH_SIZE)].
The loop takes the next batchSize records and recurses on the rest;
the fuel parameter makes the recursion structural and never runs out
when it starts at the record count with a positive batch size.
Python's range raises on a zero step, which no claim exercises. -/
def planBatchesGo (batchSize : Nat) : Nat → List α → List (List α)
  | _, [] => []
  | 0, _ :: _ => []
  | fuel + 1, x :: xs =>
      (x :: xs).take batchSize :: planBatchesGo batchSize fuel ((x :: xs).drop batchSize)

/-- Batch plan entry point: the record count is always enough fuel for a
positive batch size, which drops at least one record per step. -/
def planBatches (batchSize : Nat) (records : List α) : List (List α) :=
  planBatchesGo batchSize records.length records

/-- Upload every batch and collect each batch with its outcome.  The
source submits the batches to a worker pool; the aggregated fields used
downstream (vector totals and the failed-batch count) do not depend on
completion order, so the batches are folded in submission order. -/
def runBatches (server : List Record → Nat → Resp) (maxRetries fuel : Nat) :
    List (List Record) → Trace → Option (List (List Record × Outcome) × Trace)
  | [], tr => some ([], tr)
  | b :: bs, tr =>
      match uploadBatch server maxRetries fuel b tr with
      | none => none
      | some (out, tr1) =>
          match runBatches server maxRetries fuel bs tr1 with
          | none => none
          | some (rest, tr2) => some ((b, out) :: rest, tr2)

/-- The summary dictionary returned by upsert_chunks (lines 365-371). -/
structure UpsertResult where
  success : Bool
  vectorsUploaded : Nat
  totalVectors : Nat
  failedBatches : Nat
  deriving DecidableEq, Repr

/-- upsert_chunks from AI-Agent-P3/upload_vectors.py (lines 292-371):
plan the batches, upload them all, and report success exactly when no
batch failed, together with the vector total accumulated in the shared
statistics.  The model tag added to each vector and the console output
are not modeled. -/
def upsertChunks (server : List Record → Nat → Resp) (fuel : Nat)
    (vectors : List Record) :
    Option (UpsertResult × List (List Record × Outcome)) :=
  let batches := planBatches BATCH_SIZE vectors
  match runBatches server MAX_RETRIES fuel batches
      { stats := { totalVectors := vectors.length, totalBatches := batches.length,
                   batchSize := BATCH_SIZE },
        sleeps := [], posts := 0 } with
  | none => none
  | some (pairs, tr) =>
      let failed := pairs.countP (fun p => !p.2.success)
      some ({ success := failed == 0,
              vectorsUploaded := tr.stats.vectorsUploaded,
              totalVectors := tr.stats.totalVectors,
              failedBatches := failed }, pairs)

/-- The manifest-update loop of process_and_upload_pdfs (lines 464-470):
for every entry of file_vector_counts, a ManifestEntry is appended when
the run-level upload reported success or uploaded at least one vector;
the condition does not depend on the file. -/
def manifestFiles (fileVectorCounts : List (List Char × Nat))
    (u : UpsertResult) : List (List Char × Nat) :=
  fileVectorCounts.filter (fun _ => u.success || decide (0 < u.vectorsUploaded))

/-- Number of records of the given file that the remote store accepted
in the run: the records of batches whose outcome succeeded.  This is the
claim-side notion of a file's records being (at least partially)
accepted; the source never computes it. -/
def acceptedForFile (f : List Char) (pairs : List (List Record × Outcome)) : Nat :=
  (pairs.map (fun p =>
    if p.2.success then p.1.countP (fun r => r.file = f) else 0)).sum

/-- Reconstruction of a text from its chunks: keep the first chunk whole
and strip the first overlap characters of every later chunk, then
concatenate.  This is the concatenation-with-overlap-removed of the
specification. -/
def recon (overlap : Nat) : List (List Char) → List Char
  | [] => []
  | c :: cs => c ++ (cs.map (fun d => d.drop overlap)).flatten

/-- Server oracle that answers HTTP 413 to every request. -/
def always413 : List Record → Nat → Resp := fun _ _ => Resp.tooLarge

/-- Server oracle that times out on every request. -/
def alwaysTimeout : List Record → Nat → Resp := fun _ _ => Resp.timeout

/-- A record of a file named A. -/
def recA : Record := { file := ['A'] }

/-- A record of a file named B. -/
def recB : Record := { file := ['B'] }

/-- Vector set for the manifest counterexample: 100 records of file A
followed by one record of file B, so upsert_chunks plans exactly two
batches of sizes 100 and 1. -/
def vectorsC3 : List Record := List.replicate 100 recA ++ [recB]

/-- Server oracle for the manifest counterexample: accepts any batch
headed by a record of file A with count 100 and times out on everything
else, so the A batch succeeds and the B batch permanently fails. -/
def serverC3 : List Record → Nat → Resp := fun v _ =>
  match v.head? with
  | some r => if r.file = ['A'] then Resp.ok 100 else Resp.timeout
  | none => Resp.timeout

/-- file_vector_counts for the manifest counterexample. -/
def fvcC3 : List (List Char × Nat) := [(['A'], 100), (['B'], 1)]

/-- Server oracle that accepts every batch with count 1. -/
def serverOk1 : List Record → Nat → Resp := fun _ _ => Resp.ok 1

/-- Witness text for the 2500-word chunking claim: 2500 one-letter words
joined by single spaces. -/
def txtC4 : List Char := joinSp (List.replicate 2500 ['a'])

/-- Replacing one character by sanitize_id is idempotent: allowed
characters are kept, everything else becomes an underscore, and the
underscore is itself allowed. -/
theorem sanitizeIdChar_idem (c : Char) :
    (if isIdChar (if isIdChar c then c else '_') then (if isIdChar c then c else '_') else '_')
      = (if isIdChar c then c else '_') := by
  by_cases h : isIdChar c = true
  · simp [h]
  · simp [h]

/-- C10: the id sanitization function is idempotent: for every input
string s, sanitize_id(sanitize_id(s)) = sanitize_id(s), because its
output contains only characters in [A-Za-z0-9_-], each of which
sanitization maps to itself. -/
theorem C10_sanitize_idempotent (s : List Char) :
    sanitizeId (sanitizeId s) = sanitizeId s := by
  unfold sanitizeId
  rw [List.map_map]
  apply List.map_congr_left
  intro a _
  simp only [Function.comp_apply]
  exact sanitizeIdChar_idem a

/-- C9: every interleaving of N record_batch_complete calls and M
record_batch_failed calls on one UploadStats yields exactly N completed
batches, exactly M failed batches, and a vector total equal to the sum
of the per-call counts: no update is lost.  The source guards both
writers with a single Lock, so each call is atomic and a concurrent
execution is exactly some sequence of these operations. -/
theorem C9_stats_no_lost_updates (s : UploadStats) (ops : List StatsOp) :
    (applyStatsOps s ops).batchesCompleted
        = s.batchesCompleted + ops.countP StatsOp.isComplete ∧
    (applyStatsOps s ops).batchesFailed
        = s.batchesFailed + ops.countP (fun o => !o.isComplete) ∧
    (applyStatsOps s ops).vectorsUploaded
        = s.vectorsUploaded + (ops.map StatsOp.vcount).sum := by
  induction ops generalizing s with
  | nil => simp [applyStatsOps]
  | cons o rest ih =>
    have h := ih (applyStatsOp s o)
    simp only [applyStatsOps, List.foldl_cons] at h ⊢
    rcases h with ⟨h1, h2, h3⟩
    cases o <;>
      simp_all [applyStatsOp, recordBatchComplete, recordBatchFailed,
        StatsOp.isComplete, StatsOp.vcount, List.countP_cons] <;>
      omega

/-- The chunk_text cursor never advances when overlap equals size and
the window does not reach the end of the text: on a 3-character text
with size 2 and overlap 2 the loop runs out of any amount of fuel. -/
theorem chunkTextGo_stall (fuel : Nat) :
    chunkTextGo 2 2 ['a', 'a', 'a'] fuel 0 = none := by
  induction fuel with
  | zero => rfl
  | succ n ih => simp [chunkTextGo, ih]

/-- C2: refuted on the code; evaluation of the failing configuration.
chunk_text performs no validation of overlap against size: invoked with
overlap = size = 2 on the 3-character text aaa it loops forever (none
for every fuel bound) instead of failing fast with a configuration
error before any upload. -/
theorem C2_no_overlap_validation (fuel : Nat) :
    chunkText 2 2 fuel ['a', 'a', 'a'] = none := by
  unfold chunkText
  rw [chunkTextGo_stall]
  rfl

/-- C7: refuted as stated.  The one-character whitespace string has
length at most the chunk size 1200, but chunk_text yields zero chunks
for it, not exactly one chunk equal to the trimmed input: the single
window trims to the empty string and the final comprehension drops it. -/
theorem C7_whitespace_cex :
    [' '].length ≤ 1200 ∧ (chunkText 1200 150 2 [' ']).map List.length = some 0 := by
  decide

/-- C7 amended: chunking the empty string yields an empty sequence, and
chunking any string whose length is at most size yields exactly one
chunk equal to the trimmed input when that trim is non-empty, and an
empty sequence when the input trims to nothing (whitespace-only
input). -/
theorem C7_short_input (text : List Char) (size overlap : Nat)
    (hlen : text.length ≤ size) :
    chunkText size overlap (text.length + 1) text =
      some (if (pyStrip text).isEmpty then [] else [pyStrip text]) := by
  unfold chunkText
  by_cases h0 : 0 < text.length
  · have he : min (0 + size) text.length = text.length := by omega
    simp only [chunkTextGo, h0, if_pos, he]
    simp only [List.drop_zero, Nat.sub_zero, List.take_length, if_pos rfl]
    cases hp : (pyStrip text).isEmpty <;> simp [hp]
  · have ht : text = [] := by
      cases text with
      | nil => rfl
      | cons c t => simp at h0
    subst ht
    rfl

/-- C7 witness: a concrete two-character input of length at most 1200
chunked into exactly one chunk equal to its (identical) trim. -/
theorem C7_short_input_witness :
    chunkText 1200 150 (['a', 'b'].length + 1) ['a', 'b'] =
      some (if (pyStrip ['a', 'b']).isEmpty then [] else [pyStrip ['a', 'b']]) :=
  C7_short_input ['a', 'b'] 1200 150 (by decide)

/-- Unfolding of the batch plan on a non-empty record list with a
positive batch size: the first batch_size records followed by the plan
of the rest. -/
theorem planBatchesGo_fuel (b : Nat) (hb : b ≠ 0) :
    ∀ fuel₁ fuel₂ (r : List α), r.length ≤ fuel₁ → r.length ≤ fuel₂ →
      planBatchesGo b fuel₁ r = planBatchesGo b fuel₂ r := by
  intro fuel₁
  induction fuel₁ with
  | zero =>
    intro fuel₂ r h1 _
    have : r = [] := by
      cases r with
      | nil => rfl
      | cons x xs => simp at h1
    subst this
    cases fuel₂ <;> rfl
  | succ n ih =>
    intro fuel₂ r h1 h2
    cases r with
    | nil => cases fuel₂ <;> rfl
    | cons x xs =>
      cases fuel₂ with
      | zero => simp at h2
      | succ m =>
        simp only [planBatchesGo]
        congr 1
        apply ih
        · simp only [List.length_drop, List.length_cons] at *
          omega
        · simp only [List.length_drop, List.length_cons] at *
          omega

/-- Unfolding of the batch plan on a non-empty record list with a
positive batch size. -/
theorem planBatches_cons (b : Nat) (hb : b ≠ 0) (x : α) (xs : List α) :
    planBatches b (x :: xs) =
      (x :: xs).take b :: planBatches b ((x :: xs).drop b) := by
  show planBatchesGo b (xs.length + 1) (x :: xs) = _
  simp only [planBatchesGo]
  congr 1
  apply planBatchesGo_fuel b hb
  · simp only [List.length_drop, List.length_cons]
    omega
  · simp only [List.length_drop, List.length_cons]
    omega

/-- A batch plan is empty exactly on an empty record list (for a
positive batch size). -/
theorem planBatches_eq_nil (b : Nat) (hb : b ≠ 0) (r : List α) :
    planBatches b r = [] ↔ r = [] := by
  cases r with
  | nil => simp [planBatches, planBatchesGo]
  | cons x xs => rw [planBatches_cons b hb]; simp

/-- C6: for every record sequence and every batch_size > 0, the batch
plan of upsert_chunks partitions the records into contiguous groups:
concatenating the batches in order restores the original sequence
exactly (nothing dropped, reordered or duplicated), every batch except
possibly the last has exactly batch_size records, and every batch is
non-empty with at most batch_size records. -/
theorem C6_batch_partition (b : Nat) (hb : 0 < b) (r : List α) :
    (planBatches b r).flatten = r ∧
    (∀ l ∈ (planBatches b r).dropLast, l.length = b) ∧
    (∀ l ∈ planBatches b r, 0 < l.length ∧ l.length ≤ b) := by
  suffices H : ∀ n (r : List α), r.length ≤ n →
      (planBatches b r).flatten = r ∧
      (∀ l ∈ (planBatches b r).dropLast, l.length = b) ∧
      (∀ l ∈ planBatches b r, 0 < l.length ∧ l.length ≤ b) from
    H r.length r le_rfl
  intro n
  induction n with
  | zero =>
    intro r hr
    have : r = [] := by
      cases r with
      | nil => rfl
      | cons x xs => simp at hr
    subst this
    simp [planBatches, planBatchesGo]
  | succ n ih =>
    intro r hr
    cases r with
    | nil => simp [planBatches, planBatchesGo]
    | cons x xs =>
      have hb' : b ≠ 0 := Nat.pos_iff_ne_zero.mp hb
      rw [planBatches_cons b hb']
      have hdrop : ((x :: xs).drop b).length ≤ n := by
        simp only [List.length_drop, List.length_cons]
        simp only [List.length_cons] at hr
        omega
      obtain ⟨ihf, ihd, ihm⟩ := ih ((x :: xs).drop b) hdrop
      refine ⟨?_, ?_, ?_⟩
      · simp [ihf, List.take_append_drop]
      · intro l hl
        by_cases hnil : (x :: xs).drop b = []
        · rw [hnil] at hl
          simp [planBatches, planBatchesGo] at hl
        · have hlen : b < (x :: xs).length := by
            by_contra hc
            apply hnil
            rw [List.drop_eq_nil_iff]
            omega
          have hplan : planBatches b ((x :: xs).drop b) ≠ [] := by
            intro hc
            exact hnil ((planBatches_eq_nil b hb' _).mp hc)
          rw [List.dropLast_cons_of_ne_nil hplan] at hl
          rcases List.mem_cons.mp hl with h | h
          · subst h
            simp only [List.length_take, List.length_cons] at *
            omega
          · exact ihd l h
      · intro l hl
        rcases List.mem_cons.mp hl with h | h
        · subst h
          simp only [List.length_take, List.length_cons] at *
          omega
        · exact ihm l h

/-- C6 witness: the plan of five records with batch size 2 is two full
batches and a singleton tail, concatenating back to the original. -/
theorem C6_batch_partition_witness :
    (planBatches 2 [0, 1, 2, 3, 4]).flatten = [0, 1, 2, 3, 4] ∧
    (∀ l ∈ (planBatches 2 [0, 1, 2, 3, 4]).dropLast, l.length = 2) ∧
    (∀ l ∈ planBatches 2 [0, 1, 2, 3, 4], 0 < l.length ∧ l.length ≤ 2) :=
  C6_batch_partition 2 (by decide) [0, 1, 2, 3, 4]

/-- Recursive 413 splitting never terminates against a server that
answers payload-too-large to every request: for every batch (in
particular the empty and the singleton batch produced by splitting a
singleton at midpoint 0) and every fuel bound, upload_batch does not
finish. -/
theorem uploadBatch_always413_none :
    ∀ (fuel : Nat) (v : List Record) (tr : Trace),
      uploadBatch always413 3 fuel v tr = none := by
  intro fuel
  induction fuel with
  | zero => intro v tr; rfl
  | succ n ih =>
    intro v tr
    show uploadLoop always413 3 (fun v t => uploadBatch always413 3 n v t) v 3 none tr = none
    rw [show (3 : Nat) = 2 + 1 from rfl]
    simp only [uploadLoop, always413]
    simp [ih]

/-- C1: refuted on the code; evaluation at the failing input.  A batch
of size 1 whose upload is always answered with HTTP 413 makes
upload_batch recurse forever: the midpoint split of a singleton is the
empty batch and the same singleton batch, so batch size does not
strictly halve, and no permanent failure is ever reported (the run
returns none at every fuel bound). -/
theorem C1_size_one_413_diverges (fuel : Nat) (tr : Trace) :
    uploadBatch always413 MAX_RETRIES fuel [recA] tr = none :=
  uploadBatch_always413_none fuel [recA] tr

/-- Behaviour of the retry loop when every attempt on the batch gets a
transient response: the loop consumes all remaining attempts, posts
once per attempt, sleeps the capped exponential backoff between
attempts, records exactly one batch failure and returns a failure
outcome carrying the last attempt's error message. -/
theorem uploadLoop_transient (server : List Record → Nat → Resp) (m : Nat)
    (recurse : List Record → Trace → Option (Outcome × Trace)) (v : List Record)
    (ht : ∀ a, (server v a).isTransient = true) :
    ∀ remaining, remaining ≤ m → ∀ lastErr tr,
      uploadLoop server m recurse v remaining lastErr tr =
        some ({ success := false, vectorsUploaded := 0,
                error := if remaining = 0 then lastErr else (server v (m - 1)).errMsg },
              { stats := recordBatchFailed tr.stats,
                sleeps := tr.sleeps ++
                  (List.range' (m - remaining) (remaining - 1)).map (fun a => min (2 ^ a) 30),
                posts := tr.posts + remaining }) := by
  intro remaining
  induction remaining with
  | zero =>
    intro _ lastErr tr
    simp [uploadLoop]
  | succ k ih =>
    intro hle lastErr tr
    cases hresp : server v (m - (k + 1)) with
    | ok count =>
      have h := ht (m - (k + 1)); rw [hresp] at h; simp [Resp.isTransient] at h
    | rateLimited ra =>
      have h := ht (m - (k + 1)); rw [hresp] at h; simp [Resp.isTransient] at h
    | tooLarge =>
      have h := ht (m - (k + 1)); rw [hresp] at h; simp [Resp.isTransient] at h
    | httpError code body =>
      simp only [uploadLoop, hresp]
      rw [← hresp]
      cases k with
      | zero =>
        have hcond : ¬ (m - (0 + 1) < m - 1) := by omega
        rw [if_neg hcond, ih (by omega)]
        simp
      | succ j =>
        have hcond : m - (j + 1 + 1) < m - 1 := by omega
        rw [if_pos hcond, ih (by omega)]
        have hidx : m - (j + 1 + 1) + 1 = m - (j + 1) := by omega
        have hrange : List.range' (m - (j + 1 + 1)) (j + 1) =
            (m - (j + 1 + 1)) :: List.range' (m - (j + 1)) j := by
          rw [List.range'_succ, hidx]
        have hposts : tr.posts + 1 + (j + 1) = tr.posts + (j + 1 + 1) := by omega
        simp [hrange, hposts, List.append_assoc]
    | timeout =>
      simp only [uploadLoop, hresp]
      rw [← hresp]
      cases k with
      | zero =>
        have hcond : ¬ (m - (0 + 1) < m - 1) := by omega
        rw [if_neg hcond, ih (by omega)]
        simp
      | succ j =>
        have hcond : m - (j + 1 + 1) < m - 1 := by omega
        rw [if_pos hcond, ih (by omega)]
        have hidx : m - (j + 1 + 1) + 1 = m - (j + 1) := by omega
        have hrange : List.range' (m - (j + 1 + 1)) (j + 1) =
            (m - (j + 1 + 1)) :: List.range' (m - (j + 1)) j := by
          rw [List.range'_succ, hidx]
        have hposts : tr.posts + 1 + (j + 1) = tr.posts + (j + 1 + 1) := by omega
        simp [hrange, hposts, List.append_assoc]
    | connError msg =>
      simp only [uploadLoop, hresp]
      rw [← hresp]
      cases k with
      | zero =>
        have hcond : ¬ (m - (0 + 1) < m - 1) := by omega
        rw [if_neg hcond, ih (by omega)]
        simp
      | succ j =>
        have hcond : m - (j + 1 + 1) < m - 1 := by omega
        rw [if_pos hcond, ih (by omega)]
        have hidx : m - (j + 1 + 1) + 1 = m - (j + 1) := by omega
        have hrange : List.range' (m - (j + 1 + 1)) (j + 1) =
            (m - (j + 1 + 1)) :: List.range' (m - (j + 1)) j := by
          rw [List.range'_succ, hidx]
        have hposts : tr.posts + 1 + (j + 1) = tr.posts + (j + 1 + 1) := by omega
        simp [hrange, hposts, List.append_assoc]

/-- C8: a batch on which every attempt ends in a transient error
(timeout, connection error or unexpected status) is attempted exactly
max_retries times (hence at most max_retries), with the capped
exponential backoff delays min(2^attempt, 30) slept between attempts,
each bounded by the cap 30; after exhaustion exactly one
record_batch_failed is issued and the returned outcome has
success = false and carries the last observed error message. -/
theorem C8_transient_exhaustion (server : List Record → Nat → Resp) (m : Nat)
    (v : List Record) (tr : Trace) (hm : 0 < m)
    (ht : ∀ a, (server v a).isTransient = true) :
    uploadBatch server m 1 v tr =
      some ({ success := false, vectorsUploaded := 0,
              error := (server v (m - 1)).errMsg },
            { stats := recordBatchFailed tr.stats,
              sleeps := tr.sleeps ++ (List.range' 0 (m - 1)).map (fun a => min (2 ^ a) 30),
              posts := tr.posts + m }) ∧
    ∀ d ∈ (List.range' 0 (m - 1)).map (fun a => min (2 ^ a) 30), d ≤ 30 := by
  constructor
  · show uploadLoop server m (fun v t => uploadBatch server m 0 v t) v m none tr = _
    rw [uploadLoop_transient server m _ v ht m le_rfl]
    have hm' : m ≠ 0 := Nat.pos_iff_ne_zero.mp hm
    simp [hm', Nat.sub_self]
  · intro d hd
    simp only [List.mem_map] at hd
    obtain ⟨a, _, rfl⟩ := hd
    exact min_le_right _ _

/-- C8 witness: three timed-out attempts on a singleton batch with
MAX_RETRIES = 3 sleep 1 then 2 seconds, post three times, record one
failure and report the timeout message. -/
theorem C8_transient_exhaustion_witness :
    uploadBatch alwaysTimeout 3 1 [recA] { stats := {}, sleeps := [], posts := 0 } =
      some ({ success := false, vectorsUploaded := 0,
              error := (alwaysTimeout [recA] (3 - 1)).errMsg },
            { stats := recordBatchFailed {},
              sleeps := [] ++ (List.range' 0 (3 - 1)).map (fun a => min (2 ^ a) 30),
              posts := 0 + 3 }) ∧
    ∀ d ∈ (List.range' 0 (3 - 1)).map (fun a => min (2 ^ a) 30), d ≤ 30 :=
  C8_transient_exhaustion alwaysTimeout 3 [recA] _ (by decide) (fun _ => rfl)

/-- The retry loop adds exactly the returned outcome's vector count to
the shared statistics, provided the recursive handler used for 413
splits does the same. -/
theorem uploadLoop_vectors (server : List Record → Nat → Resp) (m : Nat)
    (recurse : List Record → Trace → Option (Outcome × Trace))
    (hrec : ∀ v' tr₀ o' tr₁, recurse v' tr₀ = some (o', tr₁) →
        tr₁.stats.vectorsUploaded = tr₀.stats.vectorsUploaded + o'.vectorsUploaded) :
    ∀ remaining (v : List Record) lastErr tr o tr',
      uploadLoop server m recurse v remaining lastErr tr = some (o, tr') →
      tr'.stats.vectorsUploaded = tr.stats.vectorsUploaded + o.vectorsUploaded := by
  intro remaining
  induction remaining with
  | zero =>
    intro v lastErr tr o tr' h
    simp only [uploadLoop, Option.some.injEq, Prod.mk.injEq] at h
    obtain ⟨ho, htr⟩ := h
    subst ho htr
    simp [recordBatchFailed]
  | succ k ih =>
    intro v lastErr tr o tr' h
    simp only [uploadLoop] at h
    cases hresp : server v (m - (k + 1)) with
    | ok count =>
      rw [hresp] at h
      simp only [Option.some.injEq, Prod.mk.injEq] at h
      obtain ⟨ho, htr⟩ := h
      subst ho htr
      simp [recordBatchComplete]
    | rateLimited ra =>
      rw [hresp] at h
      have := ih v lastErr _ o tr' h
      simpa using this
    | tooLarge =>
      rw [hresp] at h
      cases h1 : recurse (v.take (v.length / 2)) { tr with posts := tr.posts + 1 } with
      | none => simp only [h1] at h; exact absurd h (by simp)
      | some p1 =>
        obtain ⟨r1, tr2⟩ := p1
        simp only [h1] at h
        cases h2 : recurse (v.drop (v.length / 2)) tr2 with
        | none => simp only [h2] at h; exact absurd h (by simp)
        | some p2 =>
          obtain ⟨r2, tr3⟩ := p2
          simp only [h2] at h
          simp only [Option.some.injEq, Prod.mk.injEq] at h
          obtain ⟨ho, htr⟩ := h
          subst ho htr
          have e1 := hrec _ _ _ _ h1
          have e2 := hrec _ _ _ _ h2
          simp only [e2, e1]
          omega
    | httpError code body =>
      rw [hresp] at h
      have := ih v _ _ o tr' h
      rw [this]
      split <;> simp
    | timeout =>
      rw [hresp] at h
      have := ih v _ _ o tr' h
      rw [this]
      split <;> simp
    | connError msg =>
      rw [hresp] at h
      have := ih v _ _ o tr' h
      rw [this]
      split <;> simp

/-- upload_batch adds exactly the returned outcome's vector count to the
shared statistics, for every fuel bound that lets it finish. -/
theorem uploadBatch_vectors (server : List Record → Nat → Resp) (m : Nat) :
    ∀ fuel (v : List Record) tr o tr',
      uploadBatch server m fuel v tr = some (o, tr') →
      tr'.stats.vectorsUploaded = tr.stats.vectorsUploaded + o.vectorsUploaded := by
  intro fuel
  induction fuel with
  | zero => intro v tr o tr' h; simp [uploadBatch] at h
  | succ n ih =>
    intro v tr o tr' h
    simp only [uploadBatch] at h
    exact uploadLoop_vectors server m _ (fun v' t0 o' t1 hh => ih v' t0 o' t1 hh)
      m v none tr o tr' h

/-- Running a batch list adds exactly the sum of the per-batch outcome
counts to the shared statistics. -/
theorem runBatches_vectors (server : List Record → Nat → Resp) (m fuel : Nat) :
    ∀ (bs : List (List Record)) tr pairs tr',
      runBatches server m fuel bs tr = some (pairs, tr') →
      tr'.stats.vectorsUploaded =
        tr.stats.vectorsUploaded + (pairs.map (fun p => p.2.vectorsUploaded)).sum := by
  intro bs
  induction bs with
  | nil =>
    intro tr pairs tr' h
    simp only [runBatches, Option.some.injEq, Prod.mk.injEq] at h
    obtain ⟨hp, ht⟩ := h
    subst hp ht
    simp
  | cons b rest ih =>
    intro tr pairs tr' h
    simp only [runBatches] at h
    cases h1 : uploadBatch server m fuel b tr with
    | none => simp only [h1] at h; exact absurd h (by simp)
    | some p1 =>
      obtain ⟨o, tr1⟩ := p1
      simp only [h1] at h
      cases h2 : runBatches server m fuel rest tr1 with
      | none => simp only [h2] at h; exact absurd h (by simp)
      | some p2 =>
        obtain ⟨rest', tr2⟩ := p2
        simp only [h2] at h
        simp only [Option.some.injEq, Prod.mk.injEq] at h
        obtain ⟨hp, ht⟩ := h
        subst hp ht
        have e1 := uploadBatch_vectors server m fuel b tr o tr1 h1
        have e2 := ih tr1 rest' tr2 h2
        simp only [e2, e1, List.map_cons, List.sum_cons]
        omega

/-- C3: refuted as stated.  In a run over two files, where the batch of
file A's 100 records is accepted and the single-record batch of file B
permanently fails, the manifest loop appends entries for both A and B,
although zero of B's records were accepted: the condition at lines
465-466 is the run-global "success or vectors_uploaded > 0", not
per-file acceptance. -/
theorem C3_manifest_not_per_file_cex :
    (upsertChunks serverC3 1 vectorsC3).map
      (fun r => ((manifestFiles fvcC3 r.1).map Prod.fst, acceptedForFile ['B'] r.2)) =
      some ([['A'], ['B']], 0) := by
  decide

/-- C3 amended: the manifest decision is global to the run, not
per-file.  A ManifestEntry is appended for a file counted in
file_vector_counts if and only if the run as a whole had no failed
batch or recorded at least one uploaded vector (equivalently, some
batch outcome carried a positive vector count); in particular a file
none of whose records were accepted still receives an entry whenever
the run uploaded vectors of other files. -/
theorem C3_manifest_global (server : List Record → Nat → Resp) (fuel : Nat)
    (vectors : List Record) (fvc : List (List Char × Nat)) (u : UpsertResult)
    (pairs : List (List Record × Outcome))
    (h : upsertChunks server fuel vectors = some (u, pairs)) (f : List Char) :
    f ∈ (manifestFiles fvc u).map Prod.fst ↔
      f ∈ fvc.map Prod.fst ∧
        (u.failedBatches = 0 ∨
          0 < (pairs.map (fun p => p.2.vectorsUploaded)).sum) := by
  simp only [upsertChunks] at h
  cases hrun : runBatches server MAX_RETRIES fuel (planBatches BATCH_SIZE vectors)
      { stats := { totalVectors := vectors.length,
                   totalBatches := (planBatches BATCH_SIZE vectors).length,
                   batchSize := BATCH_SIZE },
        sleeps := [], posts := 0 } with
  | none => simp only [hrun] at h; exact absurd h (by simp)
  | some pt =>
    obtain ⟨pairs0, tr⟩ := pt
    simp only [hrun, Option.some.injEq, Prod.mk.injEq] at h
    obtain ⟨hu, hp⟩ := h
    subst hu hp
    have hsum := runBatches_vectors server MAX_RETRIES fuel
      (planBatches BATCH_SIZE vectors) _ pairs0 tr hrun
    simp only at hsum
    unfold manifestFiles
    by_cases hc : ((pairs0.countP (fun p => !p.2.success) == 0) : Bool) = true ∨
        0 < tr.stats.vectorsUploaded
    · have hcb : (fun (_ : List Char × Nat) =>
          ((pairs0.countP (fun p => !p.2.success) == 0 : Bool) ||
            decide (0 < tr.stats.vectorsUploaded))) = fun _ => true := by
        funext y
        rcases hc with hc | hc
        · simp [hc]
        · simp [hc]
      rw [hcb]
      rw [List.filter_true]
      constructor
      · intro hf
        refine ⟨hf, ?_⟩
        rcases hc with hc | hc
        · left
          simpa using hc
        · right
          omega
      · intro hf
        exact hf.1
    · push_neg at hc
      obtain ⟨hc1, hc2⟩ := hc
      have hcb : (fun (_ : List Char × Nat) =>
          ((pairs0.countP (fun p => !p.2.success) == 0 : Bool) ||
            decide (0 < tr.stats.vectorsUploaded))) = fun _ => false := by
        funext y
        simp only [Bool.or_eq_false_iff]
        constructor
        · simpa using hc1
        · simpa using hc2
      rw [hcb]
      rw [List.filter_false]
      simp only [List.map_nil, List.not_mem_nil, false_iff, not_and, not_or]
      intro _
      constructor
      · simpa using hc1
      · omega

/-- C3 witness for the amended claim: a one-file run whose single batch
is accepted appends a manifest entry for that file. -/
theorem C3_manifest_global_witness :
    ['A'] ∈ (manifestFiles [(['A'], 1)]
        { success := true, vectorsUploaded := 1, totalVectors := 1,
          failedBatches := 0 }).map Prod.fst ↔
      ['A'] ∈ [(['A'], 1)].map Prod.fst ∧
        (({ success := true, vectorsUploaded := 1, totalVectors := 1,
            failedBatches := 0 } : UpsertResult).failedBatches = 0 ∨
          0 < (([([recA], { success := true, vectorsUploaded := 1, error := none })] :
                  List (List Record × Outcome)).map
                (fun p => p.2.vectorsUploaded)).sum) :=
  C3_manifest_global serverOk1 1 [recA] [(['A'], 1)]
    { success := true, vectorsUploaded := 1, totalVectors := 1, failedBatches := 0 }
    [([recA], { success := true, vectorsUploaded := 1, error := none })]
    (by decide) ['A']

/-- dropWhile is the identity on a list none of whose elements satisfy
the predicate. -/
theorem dropWhile_of_all_false (p : Char → Bool) (l : List Char)
    (h : ∀ c ∈ l, p c = false) : l.dropWhile p = l := by
  cases l with
  | nil => rfl
  | cons a t =>
    rw [List.dropWhile_cons, if_neg]
    simp [h a (List.mem_cons_self a t)]

/-- Python strip is the identity on a string containing no whitespace. -/
theorem pyStrip_of_no_space (l : List Char)
    (h : ∀ c ∈ l, isPySpace c = false) : pyStrip l = l := by
  unfold pyStrip
  rw [dropWhile_of_all_false _ _ h]
  rw [dropWhile_of_all_false]
  · exact l.reverse_reverse
  · intro c hc
    exact h c (List.mem_reverse.mp hc)

/-- The chunk_text loop terminates whenever overlap < size: the cursor
advances by at least one position per iteration, so the text length
bounds the iteration count. -/
theorem chunkTextGo_isSome (size overlap : Nat) (hso : overlap < size)
    (text : List Char) :
    ∀ fuel start, text.length - start < fuel →
      (chunkTextGo size overlap text fuel start).isSome = true := by
  intro fuel
  induction fuel with
  | zero => intro start h; omega
  | succ n ih =>
    intro start h
    simp only [chunkTextGo]
    by_cases hs : start < text.length
    · rw [if_pos hs]
      by_cases he : min (start + size) text.length = text.length
      · rw [if_pos he]
        rfl
      · rw [if_neg he]
        have hlt : start + size < text.length := by
          by_contra hge
          push_neg at hge
          exact he (Nat.min_eq_right hge)
        have hmin : min (start + size) text.length = start + size :=
          Nat.min_eq_left (Nat.le_of_lt hlt)
        rw [hmin]
        cases hcc : chunkTextGo size overlap text n (start + size - overlap) with
        | none =>
          have hrec := ih (start + size - overlap) (by omega)
          rw [hcc] at hrec
          simp at hrec
        | some cs => rfl
    · rw [if_neg hs]
      rfl

/-- Reconstruction invariant of the chunk_text loop on whitespace-free
text: the emitted windows, first kept whole and the overlap stripped
from every later one, concatenate to the suffix of the text from the
cursor; stripping the overlap from every window concatenates to the
suffix shifted by overlap. -/
theorem chunkTextGo_recon (size overlap : Nat) (hov : overlap ≤ size)
    (text : List Char) (hnw : ∀ c ∈ text, isPySpace c = false) :
    ∀ fuel start cs, chunkTextGo size overlap text fuel start = some cs →
      recon overlap cs = text.drop start ∧
      (cs.map (fun d => d.drop overlap)).flatten = text.drop (start + overlap) := by
  intro fuel
  induction fuel with
  | zero => intro start cs h; simp [chunkTextGo] at h
  | succ n ih =>
    intro start cs h
    simp only [chunkTextGo] at h
    by_cases hs : start < text.length
    · rw [if_pos hs] at h
      have hstrip : pyStrip ((text.drop start).take (min (start + size) text.length - start))
          = (text.drop start).take (min (start + size) text.length - start) := by
        apply pyStrip_of_no_space
        intro c hc
        exact hnw c (List.mem_of_mem_drop (List.mem_of_mem_take hc))
      rw [hstrip] at h
      by_cases he : min (start + size) text.length = text.length
      · rw [if_pos he] at h
        simp only [Option.some.injEq] at h
        subst h
        have hw : (text.drop start).take (min (start + size) text.length - start)
            = text.drop start := by
          rw [he]
          apply List.take_of_length_le
          simp [List.length_drop]
        rw [hw]
        constructor
        · simp [recon]
        · simp only [List.map_cons, List.map_nil, List.flatten_cons, List.flatten_nil,
            List.append_nil]
          rw [List.drop_drop]
      · rw [if_neg he] at h
        have hlt : start + size < text.length := by
          by_contra hge
          push_neg at hge
          exact he (Nat.min_eq_right hge)
        have hmin : min (start + size) text.length = start + size :=
          Nat.min_eq_left (Nat.le_of_lt hlt)
        rw [hmin] at h
        cases hcc : chunkTextGo size overlap text n (start + size - overlap) with
        | none => rw [hcc] at h; simp at h
        | some cs' =>
          rw [hcc] at h
          simp only [Option.some.injEq] at h
          subst h
          obtain ⟨ih1, ih2⟩ := ih (start + size - overlap) cs' hcc
          have hidx : start + size - overlap + overlap = start + size := by omega
          rw [hidx] at ih2
          have hsz : start + size - start = size := by omega
          constructor
          · simp only [recon]
            rw [ih2, hsz]
            have hdd : text.drop (start + size) = (text.drop start).drop size := by
              rw [List.drop_drop]
            rw [hdd, List.take_append_drop]
          · simp only [List.map_cons, List.flatten_cons]
            rw [ih2, hsz, List.drop_take, List.drop_drop]
            have h2 : text.drop (start + size)
                = (text.drop (start + overlap)).drop (size - overlap) := by
              rw [List.drop_drop]
              congr 1
              omega
            rw [h2, List.take_append_drop]
    · rw [if_neg hs] at h
      simp only [Option.some.injEq] at h
      subst h
      have hd : text.drop start = [] := by
        rw [List.drop_eq_nil_iff]
        omega
      have hd2 : text.drop (start + overlap) = [] := by
        rw [List.drop_eq_nil_iff]
        omega
      simp [recon, hd, hd2]

/-- On whitespace-free text every chunk emitted by the chunk_text loop
is non-empty: each window starts strictly before the end of the text
and has positive size, and stripping does not shrink it. -/
theorem chunkTextGo_ne_nil (size overlap : Nat) (hsz : 0 < size)
    (text : List Char) (hnw : ∀ c ∈ text, isPySpace c = false) :
    ∀ fuel start cs, chunkTextGo size overlap text fuel start = some cs →
      ∀ c ∈ cs, c ≠ [] := by
  intro fuel
  induction fuel with
  | zero => intro start cs h; simp [chunkTextGo] at h
  | succ n ih =>
    intro start cs h
    simp only [chunkTextGo] at h
    by_cases hs : start < text.length
    · rw [if_pos hs] at h
      have hstrip : pyStrip ((text.drop start).take (min (start + size) text.length - start))
          = (text.drop start).take (min (start + size) text.length - start) := by
        apply pyStrip_of_no_space
        intro c hc
        exact hnw c (List.mem_of_mem_drop (List.mem_of_mem_take hc))
      rw [hstrip] at h
      have hwne : (text.drop start).take (min (start + size) text.length - start) ≠ [] := by
        intro hempty
        have := congrArg List.length hempty
        simp only [List.length_take, List.length_drop, List.length_nil] at this
        omega
      by_cases he : min (start + size) text.length = text.length
      · rw [if_pos he] at h
        simp only [Option.some.injEq] at h
        subst h
        intro c hc
        simp only [List.mem_singleton] at hc
        subst hc
        exact hwne
      · rw [if_neg he] at h
        cases hcc : chunkTextGo size overlap text n
            (min (start + size) text.length - overlap) with
        | none => rw [hcc] at h; simp at h
        | some cs' =>
          rw [hcc] at h
          simp only [Option.some.injEq] at h
          subst h
          intro c hc
          rcases List.mem_cons.mp hc with hcw | hcr
          · subst hcw
            exact hwne
          · exact ih _ cs' hcc c hcr
    · rw [if_neg hs] at h
      simp only [Option.some.injEq] at h
      subst h
      intro c hc
      simp at hc

/-- C5: refuted as stated.  On the 5-character text "a   b" with
size 2 and overlap 0, chunk_text emits the chunks "a" and "b" (the
all-whitespace middle window trims to empty and is dropped), whose
concatenation-with-overlap-removed "ab" neither equals the original
text nor is a prefix-ordered covering of it: the three spaces are a
gap. -/
theorem C5_strip_gap_cex :
    (chunkText 2 0 6 ['a', ' ', ' ', ' ', 'b']).map (recon 0) = some ['a', 'b'] ∧
    (['a', 'b'] : List Char) ≠ ['a', ' ', ' ', ' ', 'b'] ∧
    (['a', 'b'] : List Char) ≠ ['a', ' ', ' ', ' ', 'b'].take 2 := by
  decide

/-- C5 amended: for every size > 0 and 0 <= overlap < size chunking any
text terminates (the cursor strictly increases each step, so text
length + 1 iterations always suffice); and on text containing no
whitespace the emitted chunks, after removing the overlap from every
chunk but the first, reconstruct the original text exactly.  On text
with whitespace the per-window trimming and the dropping of empty
chunks can lose boundary whitespace, so exact reconstruction holds
only for the untrimmed windows. -/
theorem C5_terminates_and_reconstructs (size overlap : Nat) (text : List Char)
    (hso : overlap < size) :
    (chunkText size overlap (text.length + 1) text).isSome = true ∧
    ((∀ c ∈ text, isPySpace c = false) →
      (chunkText size overlap (text.length + 1) text).map (recon overlap) = some text) := by
  constructor
  · unfold chunkText
    have h := chunkTextGo_isSome size overlap hso text (text.length + 1) 0 (by omega)
    cases hcc : chunkTextGo size overlap text (text.length + 1) 0 with
    | none => rw [hcc] at h; simp at h
    | some cs => rfl
  · intro hnw
    have h := chunkTextGo_isSome size overlap hso text (text.length + 1) 0 (by omega)
    cases hcc : chunkTextGo size overlap text (text.length + 1) 0 with
    | none => rw [hcc] at h; simp at h
    | some cs =>
      unfold chunkText
      rw [hcc]
      have hne := chunkTextGo_ne_nil size overlap (by omega) text hnw
        (text.length + 1) 0 cs hcc
      have hfilter : cs.filter (fun c => !c.isEmpty) = cs := by
        apply List.filter_eq_self.mpr
        intro a ha
        simp only [Bool.not_eq_true', List.isEmpty_eq_false]
        exact hne a ha
      obtain ⟨h1, _⟩ := chunkTextGo_recon size overlap (Nat.le_of_lt hso) text hnw
        (text.length + 1) 0 cs hcc
      simp [hfilter, h1]

/-- C5 witness: the whitespace-free text abcde with size 2 and
overlap 1 chunks to ab, bc, cd, de, and removing the 1-character
overlaps reconstructs abcde. -/
theorem C5_terminates_and_reconstructs_witness :
    (chunkText 2 1 (['a', 'b', 'c', 'd', 'e'].length + 1) ['a', 'b', 'c', 'd', 'e']).isSome
        = true ∧
    ((∀ c ∈ ['a', 'b', 'c', 'd', 'e'], isPySpace c = false) →
      (chunkText 2 1 (['a', 'b', 'c', 'd', 'e'].length + 1)
          ['a', 'b', 'c', 'd', 'e']).map (recon 1) = some ['a', 'b', 'c', 'd', 'e']) :=
  C5_terminates_and_reconstructs 2 1 ['a', 'b', 'c', 'd', 'e'] (by decide)

/-- Every word produced by the split loop is non-empty and contains no
whitespace, provided the accumulator contains none. -/
theorem pySplitGo_good :
    ∀ (s cur : List Char), (∀ c ∈ cur, isPySpace c = false) →
      ∀ w ∈ pySplitGo s cur, w ≠ [] ∧ ∀ c ∈ w, isPySpace c = false := by
  intro s
  induction s with
  | nil =>
    intro cur hcur w hw
    simp only [pySplitGo] at hw
    by_cases hc : cur.isEmpty = true
    · rw [if_pos hc] at hw
      simp at hw
    · rw [if_neg hc] at hw
      simp only [List.mem_singleton] at hw
      subst hw
      constructor
      · simp only [ne_eq, List.reverse_eq_nil_iff]
        intro h
        rw [h] at hc
        simp at hc
      · intro c hcm
        exact hcur c (List.mem_reverse.mp hcm)
  | cons a t ih =>
    intro cur hcur w hw
    simp only [pySplitGo] at hw
    by_cases ha : isPySpace a = true
    · rw [if_pos ha] at hw
      by_cases hc : cur.isEmpty = true
      · rw [if_pos hc] at hw
        exact ih [] (by simp) w hw
      · rw [if_neg hc] at hw
        rcases List.mem_cons.mp hw with h | h
        · subst h
          constructor
          · simp only [ne_eq, List.reverse_eq_nil_iff]
            intro h
            rw [h] at hc
            simp at hc
          · intro c hcm
            exact hcur c (List.mem_reverse.mp hcm)
        · exact ih [] (by simp) w h
    · rw [if_neg ha] at hw
      apply ih (a :: cur) _ w hw
      intro c hcm
      rcases List.mem_cons.mp hcm with h | h
      · subst h
        simpa using ha
      · exact hcur c h

/-- Every word of a Python split is non-empty and whitespace-free. -/
theorem pySplit_good (s : List Char) :
    ∀ w ∈ pySplit s, w ≠ [] ∧ ∀ c ∈ w, isPySpace c = false :=
  pySplitGo_good s [] (by simp)

/-- Joining a non-empty list of non-empty words yields a non-empty
string. -/
theorem joinSp_ne_nil : ∀ ws : List (List Char), ws ≠ [] → (∀ w ∈ ws, w ≠ []) →
    joinSp ws ≠ [] := by
  intro ws
  cases ws with
  | nil => intro h; exact absurd rfl h
  | cons w ws' =>
    intro _ hw
    cases ws' with
    | nil => exact hw w (List.mem_cons_self _ _)
    | cons w'' rest => simp [joinSp]

/-- A list fixed by dropWhile has a head that fails the predicate. -/
theorem head_false_of_dropWhile_eq (p : Char → Bool) (b : Char) (u : List Char)
    (h : List.dropWhile p (b :: u) = b :: u) : p b = false := by
  by_contra hb
  rw [Bool.not_eq_false] at hb
  rw [List.dropWhile_cons, if_pos hb] at h
  have hlen := congrArg List.length h
  have hle : (List.dropWhile p u).length ≤ u.length := (List.dropWhile_sublist _).length_le
  simp only [List.length_cons] at hlen
  omega

/-- A space-joined list of good words has no leading whitespace. -/
theorem dropWhile_joinSp (ws : List (List Char)) (hne : ws ≠ [])
    (hgood : ∀ w ∈ ws, w ≠ [] ∧ ∀ c ∈ w, isPySpace c = false) :
    (joinSp ws).dropWhile isPySpace = joinSp ws := by
  cases ws with
  | nil => exact absurd rfl hne
  | cons w ws' =>
    obtain ⟨hwne, hwp⟩ := hgood w (List.mem_cons_self _ _)
    cases w with
    | nil => exact absurd rfl hwne
    | cons a t =>
      have ha : isPySpace a = false := hwp a (List.mem_cons_self _ _)
      cases ws' with
      | nil =>
        show List.dropWhile isPySpace (a :: t) = a :: t
        rw [List.dropWhile_cons, if_neg (by simp [ha])]
      | cons w'' rest =>
        show List.dropWhile isPySpace ((a :: t) ++ ' ' :: joinSp (w'' :: rest)) = _
        rw [List.cons_append, List.dropWhile_cons, if_neg (by simp [ha])]
        simp [joinSp]

/-- A space-joined list of good words has no trailing whitespace:
dropWhile on the reverse is the identity. -/
theorem dropWhile_reverse_joinSp :
    ∀ ws : List (List Char), ws ≠ [] →
      (∀ w ∈ ws, w ≠ [] ∧ ∀ c ∈ w, isPySpace c = false) →
      (joinSp ws).reverse.dropWhile isPySpace = (joinSp ws).reverse := by
  intro ws
  induction ws with
  | nil => intro h; exact absurd rfl h
  | cons w ws' ih =>
    intro _ hgood
    obtain ⟨hwne, hwp⟩ := hgood w (List.mem_cons_self _ _)
    cases ws' with
    | nil =>
      show List.dropWhile isPySpace w.reverse = w.reverse
      apply dropWhile_of_all_false
      intro c hc
      exact hwp c (List.mem_reverse.mp hc)
    | cons w'' rest =>
      have hgood' : ∀ x ∈ w'' :: rest, x ≠ [] ∧ ∀ c ∈ x, isPySpace c = false :=
        fun x hx => hgood x (List.mem_cons_of_mem _ hx)
      have hJne : joinSp (w'' :: rest) ≠ [] :=
        joinSp_ne_nil _ (by simp) (fun x hx => (hgood' x hx).1)
      have hIH := ih (by simp) hgood'
      show List.dropWhile isPySpace ((w ++ ' ' :: joinSp (w'' :: rest)).reverse) = _
      rw [List.reverse_append, List.reverse_cons]
      cases hJr : (joinSp (w'' :: rest)).reverse with
      | nil =>
        rw [List.reverse_eq_nil_iff] at hJr
        exact absurd hJr hJne
      | cons b u =>
        rw [hJr] at hIH
        have hb : isPySpace b = false := head_false_of_dropWhile_eq isPySpace b u hIH
        rw [List.cons_append, List.cons_append, List.dropWhile_cons, if_neg (by simp [hb])]
        simp [joinSp, List.reverse_append, List.reverse_cons, hJr]

/-- Python strip is the identity on a space-join of non-empty
whitespace-free words: the first and last characters are word
characters. -/
theorem pyStrip_joinSp (ws : List (List Char)) (hne : ws ≠ [])
    (hgood : ∀ w ∈ ws, w ≠ [] ∧ ∀ c ∈ w, isPySpace c = false) :
    pyStrip (joinSp ws) = joinSp ws := by
  unfold pyStrip
  rw [dropWhile_joinSp ws hne hgood, dropWhile_reverse_joinSp ws hne hgood,
    List.reverse_reverse]

/-- One unfolding of the make_chunks loop at a cursor inside the word
list. -/
theorem makeChunksGo_step (words : List (List Char)) (start : Nat)
    (hs : start < words.length) :
    makeChunksGo words start =
      (if min (start + 1200) words.length ≥ words.length then
        (if (pyStrip (joinSp ((words.drop start).take
              (min (start + 1200) words.length - start)))).isEmpty
         then []
         else [pyStrip (joinSp ((words.drop start).take
              (min (start + 1200) words.length - start)))])
       else
        (if (pyStrip (joinSp ((words.drop start).take
              (min (start + 1200) words.length - start)))).isEmpty
         then makeChunksGo words (min (start + 1200) words.length - 150)
         else pyStrip (joinSp ((words.drop start).take
              (min (start + 1200) words.length - start)))
                :: makeChunksGo words (min (start + 1200) words.length - 150))) := by
  rw [makeChunksGo.eq_def, dif_pos hs]

/-- Splitting absorbs a whitespace-free word into the accumulator. -/
theorem pySplitGo_word (w : List Char) (hw : ∀ c ∈ w, isPySpace c = false) :
    ∀ (rest cur : List Char), pySplitGo (w ++ rest) cur = pySplitGo rest (w.reverse ++ cur) := by
  induction w with
  | nil => intro rest cur; simp
  | cons c w' ih =>
    intro rest cur
    have hc : isPySpace c = false := hw c (List.mem_cons_self _ _)
    simp only [List.cons_append, pySplitGo, hc, Bool.false_eq_true, if_false, List.append_eq]
    rw [ih (fun c hc' => hw c (List.mem_cons_of_mem _ hc'))]
    congr 1
    simp [List.reverse_cons]

/-- Python split is a left inverse of the space-join on lists of
non-empty whitespace-free words. -/
theorem pySplit_joinSp :
    ∀ ws : List (List Char), (∀ w ∈ ws, w ≠ [] ∧ ∀ c ∈ w, isPySpace c = false) →
      pySplit (joinSp ws) = ws := by
  intro ws
  induction ws with
  | nil => intro _; rfl
  | cons w ws' ih =>
    intro hgood
    obtain ⟨hwne, hwp⟩ := hgood w (List.mem_cons_self _ _)
    cases ws' with
    | nil =>
      show pySplitGo (joinSp [w]) [] = [w]
      have hj : joinSp [w] = w ++ [] := by simp [joinSp]
      rw [hj, pySplitGo_word w hwp [] []]
      simp [pySplitGo, List.isEmpty_iff, List.reverse_eq_nil_iff, hwne]
    | cons w'' rest =>
      have hgood' : ∀ x ∈ w'' :: rest, x ≠ [] ∧ ∀ c ∈ x, isPySpace c = false :=
        fun x hx => hgood x (List.mem_cons_of_mem _ hx)
      show pySplitGo (joinSp (w :: w'' :: rest)) [] = _
      have hj : joinSp (w :: w'' :: rest) = w ++ ' ' :: joinSp (w'' :: rest) := rfl
      rw [hj, pySplitGo_word w hwp _ []]
      simp only [List.append_nil, pySplitGo, show isPySpace ' ' = true from rfl, if_pos]
      rw [if_neg (by simp [List.isEmpty_iff, List.reverse_eq_nil_iff, hwne])]
      rw [show pySplitGo (joinSp (w'' :: rest)) [] = pySplit (joinSp (w'' :: rest)) from rfl]
      rw [ih hgood']
      simp

/-- The 2500-word witness text splits back into its 2500 one-letter
words. -/
theorem pySplit_txtC4 : pySplit txtC4 = List.replicate 2500 ['a'] := by
  unfold txtC4
  apply pySplit_joinSp
  intro w hw
  have hmem := List.eq_of_mem_replicate hw
  subst hmem
  refine ⟨by simp, ?_⟩
  intro c hc
  simp only [List.mem_singleton] at hc
  subst hc
  rfl

/-- C4: chunking a 2500-word text with chunk size 1200 and overlap 150,
both counted in words (the unit of make_chunks), yields exactly 3
chunks: the joins of the word windows [0,1200), [1050,2250) and
[2100,2500) — two full 1200-word windows overlapping by 150 words and a
shorter 400-word final tail. -/
theorem C4_2500_word_chunks (text : List Char)
    (hlen : (pySplit text).length = 2500) :
    makeChunks text =
      [joinSp ((pySplit text).take 1200),
       joinSp (((pySplit text).drop 1050).take 1200),
       joinSp (((pySplit text).drop 2100).take 400)] ∧
    ((pySplit text).take 1200).length = 1200 ∧
    (((pySplit text).drop 1050).take 1200).length = 1200 ∧
    (((pySplit text).drop 2100).take 400).length = 400 := by
  have hgood := pySplit_good text
  have hg1 : ∀ w ∈ (pySplit text).take 1200, w ≠ [] ∧ ∀ c ∈ w, isPySpace c = false :=
    fun w hw => hgood w (List.mem_of_mem_take hw)
  have hg2 : ∀ w ∈ ((pySplit text).drop 1050).take 1200,
      w ≠ [] ∧ ∀ c ∈ w, isPySpace c = false :=
    fun w hw => hgood w (List.mem_of_mem_drop (List.mem_of_mem_take hw))
  have hg3 : ∀ w ∈ ((pySplit text).drop 2100).take 400,
      w ≠ [] ∧ ∀ c ∈ w, isPySpace c = false :=
    fun w hw => hgood w (List.mem_of_mem_drop (List.mem_of_mem_take hw))
  have hl1 : ((pySplit text).take 1200).length = 1200 := by
    simp [List.length_take, hlen]
  have hl2 : (((pySplit text).drop 1050).take 1200).length = 1200 := by
    simp [List.length_take, List.length_drop, hlen]
  have hl3 : (((pySplit text).drop 2100).take 400).length = 400 := by
    simp [List.length_take, List.length_drop, hlen]
  have ht1 : (pySplit text).take 1200 ≠ [] := by
    intro h; rw [h] at hl1; simp at hl1
  have ht2 : ((pySplit text).drop 1050).take 1200 ≠ [] := by
    intro h; rw [h] at hl2; simp at hl2
  have ht3 : ((pySplit text).drop 2100).take 400 ≠ [] := by
    intro h; rw [h] at hl3; simp at hl3
  have hc1 := pyStrip_joinSp _ ht1 hg1
  have hc2 := pyStrip_joinSp _ ht2 hg2
  have hc3 := pyStrip_joinSp _ ht3 hg3
  have hne1 : joinSp ((pySplit text).take 1200) ≠ [] :=
    joinSp_ne_nil _ ht1 (fun w hw => (hg1 w hw).1)
  have hne2 : joinSp (((pySplit text).drop 1050).take 1200) ≠ [] :=
    joinSp_ne_nil _ ht2 (fun w hw => (hg2 w hw).1)
  have hne3 : joinSp (((pySplit text).drop 2100).take 400) ≠ [] :=
    joinSp_ne_nil _ ht3 (fun w hw => (hg3 w hw).1)
  refine ⟨?_, hl1, hl2, hl3⟩
  unfold makeChunks
  rw [makeChunksGo_step _ 0 (by omega)]
  simp only [hlen, Nat.zero_add, Nat.sub_zero, List.drop_zero]
  norm_num
  rw [hc1]
  rw [if_neg (by simp [List.isEmpty_iff, hne1])]
  rw [makeChunksGo_step _ 1050 (by omega)]
  simp only [hlen]
  norm_num
  rw [hc2]
  rw [if_neg (by simp [List.isEmpty_iff, hne2])]
  rw [makeChunksGo_step _ 2100 (by omega)]
  simp only [hlen]
  norm_num
  rw [hc3]
  rw [if_neg (by simp [List.isEmpty_iff, hne3])]

/-- C4 witness: the concrete 2500-word text of one-letter words chunks
into exactly the three stated windows. -/
theorem C4_2500_word_chunks_witness :
    makeChunks txtC4 =
      [joinSp ((pySplit txtC4).take 1200),
       joinSp (((pySplit txtC4).drop 1050).take 1200),
       joinSp (((pySplit txtC4).drop 2100).take 400)] ∧
    ((pySplit txtC4).take 1200).length = 1200 ∧
    (((pySplit txtC4).drop 1050).take 1200).length = 1200 ∧
    (((pySplit txtC4).drop 2100).take 400).length = 400 :=
  C4_2500_word_chunks txtC4 (by rw [pySplit_txtC4, List.length_replicate])
